import Mathlib

/-!
# libpedsim: the per-tick position update of `Ped::Model`

A shallow embedding of `src/libpedsim/ped_model.cpp` (`tick`, `thread_func`,
`move`, `getNeighbors`) and theorems about it.

Modelling conventions.

* A `Tagent*` is an address (`Nat`); the objects live in `Model.mem`.
  `Model.agents` is the `std::vector<Tagent*>` of the class.
* A C++ `int` is an `Int` between `-2^31` and `2^31 - 1` (`isInt`); the fields
  of an agent carry this bound.  The additions and subtractions of `move` are
  32-bit: their exact result is reduced modulo `2^32` into that range
  (`wrapInt`), which is what the compiled code does where the exact result does
  not fit (the C++ standard leaves that case undefined).
* `ped_agent.h` is not part of the sources at hand: the accessors `getX`,
  `getY`, `getDesiredX`, `getDesiredY`, `setX`, `setY` are the plain field
  accessors, and `computeNextDesiredPosition` is a parameter of `tick`.
-/

set_option autoImplicit false

namespace Ped

/-- The values of the C++ type `int`: 32 bits, two's complement. -/
def isInt (z : Int) : Prop := -2147483648 ≤ z ∧ z ≤ 2147483647

instance decidableIsInt (z : Int) : Decidable (isInt z) := by
  unfold isInt
  infer_instance

/-- The `int` that a 32-bit addition or subtraction leaves for the exact result
`z`: the value congruent to `z` modulo `2^32` in the range of `int`. -/
def wrapInt (z : Int) : Int := (z + 2147483648) % 4294967296 - 2147483648

/-- Modelled from the spec: the class `Tagent` of `ped_agent.h` (not among the
sources).  An agent has a current position, a last computed desired position,
and further private state (its waypoint queue) kept abstract in `rest`.  The
four coordinates are C++ `int`s. -/
structure Tagent (σ : Type) where
  x : Int
  y : Int
  desiredX : Int
  desiredY : Int
  rest : σ
  inRange : isInt x ∧ isInt y ∧ isInt desiredX ∧ isInt desiredY

/-- The enumeration `IMPLEMENTATION` of `ped_model.h`. -/
inductive IMPLEMENTATION where
  | CUDA
  | VECTOR
  | OMP
  | PTHREAD
  | SEQ
  | MOVE
  deriving DecidableEq, Repr

/-- The fields of `Ped::Model` that `tick`, `thread_func`, `move` and
`getNeighbors` touch: the vector of agent pointers, the agent objects they
point to, and the selected implementation. -/
structure Model (σ : Type) where
  agents : List Nat
  mem : Nat → Tagent σ
  implementation : IMPLEMENTATION

namespace Tagent

variable {σ : Type}

/-- The accessor `Tagent::getX`. -/
def getX (a : Tagent σ) : Int := a.x

/-- The accessor `Tagent::getY`. -/
def getY (a : Tagent σ) : Int := a.y

/-- The accessor `Tagent::getDesiredX`. -/
def getDesiredX (a : Tagent σ) : Int := a.desiredX

/-- The accessor `Tagent::getDesiredY`. -/
def getDesiredY (a : Tagent σ) : Int := a.desiredY

/-- The mutator `Tagent::setX`.  Its parameter is an `int`. -/
def setX (a : Tagent σ) (newX : Int) : Tagent σ :=
  { a with
    x := wrapInt newX
    inRange := ⟨by unfold isInt wrapInt; omega, a.inRange.2⟩ }

/-- The mutator `Tagent::setY`.  Its parameter is an `int`. -/
def setY (a : Tagent σ) (newY : Int) : Tagent σ :=
  { a with
    y := wrapInt newY
    inRange := ⟨a.inRange.1, by unfold isInt wrapInt; omega, a.inRange.2.2⟩ }

end Tagent

namespace Model

variable {σ : Type}

/-- Store `v` as the object at address `p` (a write through a `Tagent*`). -/
def write (m : Model σ) (p : Nat) (v : Tagent σ) : Model σ :=
  { m with mem := fun q => if q = p then v else m.mem q }

/-- The current position `(getX, getY)` of the agent at address `p`. -/
def position (m : Model σ) (p : Nat) : Int × Int :=
  ((m.mem p).getX, (m.mem p).getY)

/-- Insertion into a `std::set<const Tagent*>`: the set is kept in ascending
address order and holds every address at most once. -/
def setInsert (p : Nat) : List Nat → List Nat
  | [] => [p]
  | q :: s =>
    if p < q then p :: q :: s
    else if p = q then q :: s
    else q :: setInsert p s

/-- The function `Model::getNeighbors`: the range constructor
`set<const Tagent*>(agents.begin(), agents.end())`, listed in the iteration
order of the set.  The arguments `x`, `y`, `dist` are not used by the body. -/
def getNeighbors (m : Model σ) (_x _y _dist : Int) : List Nat :=
  m.agents.foldl (fun s p => setInsert p s) []

/-- The first loop of `move`: the positions of the neighbours, in iteration
order (`takenPositions`). -/
def takenPositions (m : Model σ) (neighbors : List Nat) : List (Int × Int) :=
  neighbors.map (fun p => ((m.mem p).getX, (m.mem p).getY))

/-- The vector `prioritizedAlternatives` that `move` builds for an agent:
`pDesired`, then `p1` and `p2` from the straight or the diagonal branch.  All
variables are `int`s and every `+` and `-` is a 32-bit operation. -/
def prioritizedAlternatives (agent : Tagent σ) : List (Int × Int) :=
  let pDesired : Int × Int := (agent.getDesiredX, agent.getDesiredY)
  let diffX : Int := wrapInt (pDesired.1 - agent.getX)
  let diffY : Int := wrapInt (pDesired.2 - agent.getY)
  let p12 : (Int × Int) × (Int × Int) :=
    if diffX = 0 ∨ diffY = 0 then
      ((wrapInt (pDesired.1 + diffY), wrapInt (pDesired.2 + diffX)),
       (wrapInt (pDesired.1 - diffY), wrapInt (pDesired.2 - diffX)))
    else
      ((pDesired.1, agent.getY), (agent.getX, pDesired.2))
  [pDesired, p12.1, p12.2]

/-- None of the 32-bit operations that `move` performs on the coordinates of
this agent overflows: the two differences are `int`s, and in the straight
branch so are the four sums and differences of the alternatives. -/
def noOverflow (agent : Tagent σ) : Prop :=
  isInt (agent.getDesiredX - agent.getX) ∧ isInt (agent.getDesiredY - agent.getY) ∧
  ((agent.getDesiredX - agent.getX = 0 ∨ agent.getDesiredY - agent.getY = 0) →
    isInt (agent.getDesiredX + (agent.getDesiredY - agent.getY)) ∧
    isInt (agent.getDesiredY + (agent.getDesiredX - agent.getX)) ∧
    isInt (agent.getDesiredX - (agent.getDesiredY - agent.getY)) ∧
    isInt (agent.getDesiredY - (agent.getDesiredX - agent.getX)))

instance decidableNoOverflow (agent : Tagent σ) : Decidable (noOverflow agent) := by
  unfold noOverflow
  infer_instance

/-- The last loop of `move`: walk the alternatives in order; at the first one
that `std::find` does not find among the taken positions, call `setX` and
`setY` on the agent and `break`.  When the loop runs off the end nothing is
written. -/
def commitFirstEmpty (m : Model σ) (agent : Nat) (taken : List (Int × Int)) :
    List (Int × Int) → Model σ
  | [] => m
  | it :: rest =>
    if it ∉ taken then
      let m1 := m.write agent ((m.mem agent).setX it.1)
      m1.write agent ((m1.mem agent).setY it.2)
    else
      commitFirstEmpty m agent taken rest

/-- The function `Model::move`. -/
def move (m : Model σ) (agent : Nat) : Model σ :=
  let neighbors := m.getNeighbors (m.mem agent).getX (m.mem agent).getY 2
  let taken := m.takenPositions neighbors
  commitFirstEmpty m agent taken (prioritizedAlternatives (m.mem agent))

/-- The snapshot `move` works on: the current positions of the agents that
`getNeighbors` returns for the agent at address `agent`. -/
def snapshot (m : Model σ) (agent : Nat) : List (Int × Int) :=
  m.takenPositions (m.getNeighbors (m.mem agent).getX (m.mem agent).getY 2)

end Model

/-! ## `tick` and `thread_func` -/

/-- What can go wrong in a run of `tick`: an integer division by zero, or a
subscript past the end of `agents`. -/
inductive Fault where
  | divisionByZero
  | outOfRange
  deriving DecidableEq, Repr

/-- How a run ends: it returns with a result, it stops at a fault, or it is
still looping when the step budget is used up. -/
inductive Outcome (α : Type) where
  | done (a : α)
  | fault (f : Fault)
  | outOfFuel

/-- A model together with the record of the calls of
`computeNextDesiredPosition` made so far: the addresses of the receivers, in
call order. -/
structure Run (σ : Type) where
  model : Model σ
  calls : List Nat

section tick

variable {σ : Type}

/-- The three statements every loop body of `tick` and `thread_func` consists
of, for the agent at address `p`:
`p->computeNextDesiredPosition(); p->setX(p->getDesiredX()); p->setY(p->getDesiredY());`.
The parameter `compute` stands for `Tagent::computeNextDesiredPosition`, which
reads and writes the receiver only. -/
def computeAndCommit (compute : Tagent σ → Tagent σ) (r : Run σ) (p : Nat) : Run σ :=
  let m1 := r.model.write p (compute (r.model.mem p))
  let m2 := m1.write p ((m1.mem p).setX (m1.mem p).getDesiredX)
  let m3 := m2.write p ((m2.mem p).setY (m2.mem p).getDesiredY)
  { model := m3, calls := r.calls ++ [p] }

/-- Run the loop body on `agents[index]` for each `index` of a list, in list
order.  A subscript that is not below `agents.size()` is a fault. -/
def runIndices (compute : Tagent σ → Tagent σ) : List Nat → Run σ → Outcome (Run σ)
  | [], r => Outcome.done r
  | index :: rest, r =>
    match r.model.agents[index]? with
    | none => Outcome.fault Fault.outOfRange
    | some p => runIndices compute rest (computeAndCommit compute r p)

/-- The values the variable `index` takes in `thread_func(val, work)`:
`val + i` for `i = 0, ..., work - 1`. -/
def threadIndices (val work : Nat) : List Nat :=
  (List.range work).map (fun i => val + i)

/-- The function `Model::thread_func`. -/
def thread_func (compute : Tagent σ → Tagent σ) (val work : Nat) (r : Run σ) :
    Outcome (Run σ) :=
  runIndices compute (threadIndices val work) r

/-- The clamp at the head of the PTHREAD branch:
`if (num_threads > agents.size()) num_threads = agents.size();`. -/
def clampThreads (num_threads size : Nat) : Nat :=
  if num_threads > size then size else num_threads

/-- The arguments `(index, work)` of the threads started by the loop
`for (i = 0; i < num_threads && num_agents; i++)`, followed by the arguments
`(num_agents - remainder, remainder)` of the call the main thread makes
itself.  Here `num_threads` is the count after the clamp. -/
def pthreadRanges (num_threads num_agents : Nat) : List (Nat × Nat) :=
  let work := num_agents / num_threads
  let remainder := num_agents % num_threads
  let spawned :=
    if num_agents ≠ 0 then (List.range num_threads).map (fun i => (i * work, work)) else []
  spawned ++ [(num_agents - remainder, remainder)]

/-- Run `thread_func` on each pair of a list, one after the other. -/
def runRanges (compute : Tagent σ → Tagent σ) : List (Nat × Nat) → Run σ → Outcome (Run σ)
  | [], r => Outcome.done r
  | (val, work) :: rest, r =>
    match thread_func compute val work r with
    | Outcome.done r1 => runRanges compute rest r1
    | Outcome.fault f => Outcome.fault f
    | Outcome.outOfFuel => Outcome.outOfFuel

/-- The PTHREAD branch of `tick`, with the initial value of `num_threads` as a
parameter (the source has `int num_threads = 1`).  The two divisions
`num_agents / num_threads` and `num_agents % num_threads` come before the
loops, so a zero divisor is a fault.  The threads are run in the order in
which they are started, the call of the main thread last. -/
def tickPTHREAD (compute : Tagent σ → Tagent σ) (requested : Nat) (m : Model σ) :
    Outcome (Run σ) :=
  let num_threads := clampThreads requested m.agents.length
  let num_agents := m.agents.length
  if num_threads = 0 then Outcome.fault Fault.divisionByZero
  else runRanges compute (pthreadRanges num_threads num_agents) ⟨m, []⟩

/-- The loop of the VECTOR branch,
`for (int i = 0; i < agents.size(); i+4) { X = _mm_load_ps(&X[i]); }`.
The third clause `i+4` is an expression without effect, so `i` keeps its
value; the body loads into the local register `X` and touches neither an agent
nor the member arrays.  The result is the final value of `i`, or `none` when
the loop is still running after `fuel` tests of the condition. -/
def vectorLoop (size : Nat) : Nat → Nat → Option Nat
  | 0, _ => none
  | fuel + 1, i => if i < size then vectorLoop size fuel i else some i

/-- The function `Model::tick`.  `sched` is the order in which the OpenMP
runtime executes the iterations of the `parallel for` loop, and `fuel` bounds
the number of condition tests of the VECTOR loop.  The values `CUDA` and
`MOVE` match no branch. -/
def tick (compute : Tagent σ → Tagent σ) (sched : List Nat) (fuel : Nat) (m : Model σ) :
    Outcome (Run σ) :=
  if m.implementation = IMPLEMENTATION.SEQ then
    Outcome.done (m.agents.foldl (computeAndCommit compute) ⟨m, []⟩)
  else if m.implementation = IMPLEMENTATION.OMP then
    runIndices compute sched ⟨m, []⟩
  else if m.implementation = IMPLEMENTATION.PTHREAD then
    tickPTHREAD compute 1 m
  else if m.implementation = IMPLEMENTATION.VECTOR then
    match vectorLoop m.agents.length fuel 0 with
    | some _ => Outcome.done ⟨m, []⟩
    | none => Outcome.outOfFuel
  else
    Outcome.done ⟨m, []⟩

/-- The state of an agent object after `setX(getDesiredX())` and
`setY(getDesiredY())`. -/
def committed (v : Tagent σ) : Tagent σ :=
  (v.setX v.getDesiredX).setY (v.setX v.getDesiredX).getDesiredY

/-- The current positions of all agents of `agents`, in index order. -/
def positions (m : Model σ) : List (Int × Int) :=
  m.agents.map m.position

/-- The final positions of a run of `k` ticks, each with its own schedule for
the OpenMP loop (`scheds i` for tick `i`); the first tick that does not return
ends the run. -/
def ticks (compute : Tagent σ → Tagent σ) (scheds : Nat → List Nat) (fuel : Nat) :
    Nat → Model σ → Outcome (Model σ)
  | 0, m => Outcome.done m
  | k + 1, m =>
    match tick compute (scheds k) fuel m with
    | Outcome.done r => ticks compute scheds fuel k r.model
    | Outcome.fault f => Outcome.fault f
    | Outcome.outOfFuel => Outcome.outOfFuel

end tick

/-! ## Concrete scenarios -/

/-- Four agents: the one at address 0 stands on `(5,5)` and wants to go to
`(5,7)`; the ones at addresses 1, 2, 3 stand on `(5,7)`, `(7,7)`, `(3,7)` and
want to stay. -/
def exampleMem : Nat → Tagent Unit := fun p =>
  if p = 0 then ⟨5, 5, 5, 7, (), by decide⟩
  else if p = 1 then ⟨5, 7, 5, 7, (), by decide⟩
  else if p = 2 then ⟨7, 7, 7, 7, (), by decide⟩
  else ⟨3, 7, 3, 7, (), by decide⟩

/-- The scenario of `exampleMem` with a chosen vector of agents and a chosen
implementation. -/
def exampleModel (agents : List Nat) (impl : IMPLEMENTATION) : Model Unit :=
  ⟨agents, exampleMem, impl⟩

/-- An agent on `(2,3)` that wants to go to `(3,4)`. -/
def diagonalAgent : Tagent Unit := ⟨2, 3, 3, 4, (), by decide⟩

/-- A desired-position computation for the scenarios: one step to the right
of the current position. -/
def stepRight (a : Tagent Unit) : Tagent Unit :=
  { a with
    desiredX := wrapInt (a.x + 1)
    desiredY := a.y
    inRange := ⟨a.inRange.1, a.inRange.2.1, by unfold isInt wrapInt; omega, a.inRange.2.1⟩ }

/-- An agent on `(0, -2000000000)` that wants to go to `(0, 2000000000)`: the
exact difference of the two `y` coordinates is no `int`. -/
def farAgent : Tagent Unit := ⟨0, -2000000000, 0, 2000000000, (), by decide⟩

/-- Two agents at the right edge of the `int` range: the one at address 0 stands
on `(2147483647, 0)` and wants to go one cell up, to `(2147483647, 1)`, where
the one at address 1 stands and wants to stay. -/
def edgeMem : Nat → Tagent Unit := fun p =>
  if p = 0 then ⟨2147483647, 0, 2147483647, 1, (), by decide⟩
  else ⟨2147483647, 1, 2147483647, 1, (), by decide⟩

/-- The scenario of `edgeMem` with both agents in the model. -/
def edgeModel : Model Unit := ⟨[0, 1], edgeMem, IMPLEMENTATION.MOVE⟩

/-! ## Notions used by the statements on `move` and on the VECTOR loop -/

/-- A finite sequence of calls of `move`, one for each address of the list, in
list order. -/
def Model.moves {σ : Type} (m : Model σ) (l : List Nat) : Model σ :=
  l.foldl Model.move m

/-- The current positions of the agents of the model are pairwise distinct:
two entries of `agents` with the same position are the same agent. -/
def Model.distinctPositions {σ : Type} (m : Model σ) : Prop :=
  ∀ p ∈ m.agents, ∀ q ∈ m.agents, m.position p = m.position q → p = q

instance Model.decidableDistinctPositions {σ : Type} (m : Model σ) :
    Decidable m.distinctPositions := by
  unfold Model.distinctPositions
  infer_instance

/-- The Manhattan distance between two cells. -/
def manhattan (p q : Int × Int) : Int :=
  |p.1 - q.1| + |p.2 - q.2|

/-- The value of the loop variable `i` of the VECTOR branch after `n` passes
through the loop head, started with the value `i`: while `i < size` the body
and the clause `i+4` are executed, and neither assigns to `i`. -/
def vectorIndexAfter (size : Nat) : Nat → Nat → Nat
  | 0, i => i
  | n + 1, i => if i < size then vectorIndexAfter size n i else i

/-- Two agents with the same desired cell `(5,7)`: the one at address 0 stands
on `(5,5)`, the one at address 1 on `(5,9)`.  The agents at addresses 2 and 3
stand on `(7,7)` and `(3,7)` and want to stay; every further address holds an
agent resting on `(0,0)`. -/
def collisionMem : Nat → Tagent Unit := fun p =>
  if p = 0 then ⟨5, 5, 5, 7, (), by decide⟩
  else if p = 1 then ⟨5, 9, 5, 7, (), by decide⟩
  else if p = 2 then ⟨7, 7, 7, 7, (), by decide⟩
  else if p = 3 then ⟨3, 7, 3, 7, (), by decide⟩
  else ⟨0, 0, 0, 0, (), by decide⟩

/-- The scenario of `collisionMem` with a chosen vector of agents. -/
def collisionModel (agents : List Nat) : Model Unit :=
  ⟨agents, collisionMem, IMPLEMENTATION.MOVE⟩

/-- Agent 0 of `exampleMem` among other company: the agents at addresses 0 and
2 stand on `(5,5)`, all others on `(5,7)`. -/
def shuffledMem : Nat → Tagent Unit := fun p =>
  if p = 0 then ⟨5, 5, 5, 7, (), by decide⟩
  else if p = 2 then ⟨5, 5, 9, 9, (), by decide⟩
  else ⟨5, 7, 1, 1, (), by decide⟩

/-! ## Lemmas on 32-bit arithmetic -/

theorem isInt_wrapInt (z : Int) : isInt (wrapInt z) := by
  unfold isInt wrapInt
  omega

theorem wrapInt_eq_self (z : Int) (h : isInt z) : wrapInt z = z := by
  unfold isInt at h
  unfold wrapInt
  omega

/-- A difference of two `int`s is zero as an `int` exactly when it is zero. -/
theorem wrapInt_sub_eq_zero (a b : Int) (ha : isInt a) (hb : isInt b) :
    wrapInt (a - b) = 0 ↔ a - b = 0 := by
  unfold isInt at ha hb
  unfold wrapInt
  omega

theorem Tagent.isInt_getX {σ : Type} (a : Tagent σ) : isInt a.getX := a.inRange.1

theorem Tagent.isInt_getY {σ : Type} (a : Tagent σ) : isInt a.getY := a.inRange.2.1

theorem Tagent.isInt_getDesiredX {σ : Type} (a : Tagent σ) : isInt a.getDesiredX :=
  a.inRange.2.2.1

theorem Tagent.isInt_getDesiredY {σ : Type} (a : Tagent σ) : isInt a.getDesiredY :=
  a.inRange.2.2.2

/-- The branch test of `move` in terms of the exact differences. -/
theorem straight_test_iff {σ : Type} (agent : Tagent σ) :
    (wrapInt (agent.getDesiredX - agent.getX) = 0 ∨
      wrapInt (agent.getDesiredY - agent.getY) = 0) ↔
    (agent.getDesiredX - agent.getX = 0 ∨ agent.getDesiredY - agent.getY = 0) := by
  rw [wrapInt_sub_eq_zero _ _ agent.isInt_getDesiredX agent.isInt_getX,
    wrapInt_sub_eq_zero _ _ agent.isInt_getDesiredY agent.isInt_getY]

/-! ## Lemmas on `move` -/

namespace Model

variable {σ : Type}

/-- Every alternative is a pair of `int`s. -/
theorem alternatives_isInt (agent : Tagent σ) (c : Int × Int)
    (hc : c ∈ prioritizedAlternatives agent) : isInt c.1 ∧ isInt c.2 := by
  unfold prioritizedAlternatives at hc
  simp only [List.mem_cons, List.mem_singleton, List.not_mem_nil, or_false] at hc
  split_ifs at hc
  · rcases hc with h | h | h <;> subst h
    · exact ⟨agent.isInt_getDesiredX, agent.isInt_getDesiredY⟩
    · exact ⟨isInt_wrapInt _, isInt_wrapInt _⟩
    · exact ⟨isInt_wrapInt _, isInt_wrapInt _⟩
  · rcases hc with h | h | h <;> subst h
    · exact ⟨agent.isInt_getDesiredX, agent.isInt_getDesiredY⟩
    · exact ⟨agent.isInt_getDesiredX, agent.isInt_getY⟩
    · exact ⟨agent.isInt_getX, agent.isInt_getDesiredY⟩

theorem position_write_setX_setY (m : Model σ) (a : Nat) (it : Int × Int)
    (hr : isInt it.1 ∧ isInt it.2) :
    ((m.write a ((m.mem a).setX it.1)).write a
      (((m.write a ((m.mem a).setX it.1)).mem a).setY it.2)).position a = it := by
  simp only [position, write, Tagent.setX, Tagent.setY, Tagent.getX, Tagent.getY, if_true,
    wrapInt_eq_self _ hr.1, wrapInt_eq_self _ hr.2]

theorem commitFirstEmpty_free (m : Model σ) (a : Nat) (taken : List (Int × Int))
    (it : Int × Int) (rest : List (Int × Int)) (h : it ∉ taken)
    (hr : isInt it.1 ∧ isInt it.2) :
    (commitFirstEmpty m a taken (it :: rest)).position a = it := by
  simp only [commitFirstEmpty, h, not_false_eq_true, if_true]
  exact position_write_setX_setY m a it hr

theorem commitFirstEmpty_taken (m : Model σ) (a : Nat) (taken : List (Int × Int))
    (it : Int × Int) (rest : List (Int × Int)) (h : it ∈ taken) :
    commitFirstEmpty m a taken (it :: rest) = commitFirstEmpty m a taken rest := by
  simp [commitFirstEmpty, h]

theorem commitFirstEmpty_all_taken (m : Model σ) (a : Nat) (taken : List (Int × Int)) :
    ∀ alts : List (Int × Int), (∀ c ∈ alts, c ∈ taken) → commitFirstEmpty m a taken alts = m
  | [], _ => rfl
  | it :: rest, h => by
    rw [commitFirstEmpty_taken m a taken it rest (h it (List.mem_cons_self _ _))]
    exact commitFirstEmpty_all_taken m a taken rest
      (fun c hc => h c (List.mem_cons_of_mem _ hc))

/-- The loop either commits an alternative that is not taken, or finds every
alternative taken and leaves the model as it is. -/
theorem commitFirstEmpty_cases (m : Model σ) (a : Nat) (taken : List (Int × Int)) :
    ∀ alts : List (Int × Int), (∀ c ∈ alts, isInt c.1 ∧ isInt c.2) →
      (∃ c ∈ alts, c ∉ taken ∧ (commitFirstEmpty m a taken alts).position a = c) ∨
      ((∀ c ∈ alts, c ∈ taken) ∧ commitFirstEmpty m a taken alts = m)
  | [], _ => Or.inr ⟨fun _ hc => absurd hc (List.not_mem_nil _), rfl⟩
  | it :: rest, hr => by
    by_cases h : it ∈ taken
    · rw [commitFirstEmpty_taken m a taken it rest h]
      rcases commitFirstEmpty_cases m a taken rest
          (fun c hc => hr c (List.mem_cons_of_mem _ hc)) with
        ⟨c, hc, hfree, hpos⟩ | ⟨hall, heq⟩
      · exact Or.inl ⟨c, List.mem_cons_of_mem _ hc, hfree, hpos⟩
      · refine Or.inr ⟨?_, heq⟩
        intro c hc
        rcases List.mem_cons.mp hc with rfl | hc
        · exact h
        · exact hall c hc
    · exact Or.inl ⟨it, List.mem_cons_self _ _, h,
        commitFirstEmpty_free m a taken it rest h (hr it (List.mem_cons_self _ _))⟩

theorem mem_setInsert (p q : Nat) : ∀ s : List Nat, q ∈ setInsert p s ↔ q = p ∨ q ∈ s
  | [] => by simp [setInsert]
  | r :: s => by
    unfold setInsert
    split_ifs with h1 h2
    · simp
    · subst h2; simp
    · simp only [List.mem_cons, mem_setInsert p q s]
      tauto

theorem mem_foldl_setInsert (q : Nat) :
    ∀ (l s : List Nat), q ∈ l.foldl (fun s p => setInsert p s) s ↔ q ∈ l ∨ q ∈ s
  | [], s => by simp
  | p :: l, s => by
    simp only [List.foldl_cons, mem_foldl_setInsert q l, mem_setInsert, List.mem_cons]
    tauto

theorem mem_getNeighbors (m : Model σ) (x y dist : Int) (q : Nat) :
    q ∈ m.getNeighbors x y dist ↔ q ∈ m.agents := by
  simp [getNeighbors, mem_foldl_setInsert]

theorem mem_snapshot (m : Model σ) (a : Nat) (c : Int × Int) :
    c ∈ m.snapshot a ↔
      ∃ q ∈ m.getNeighbors (m.mem a).getX (m.mem a).getY 2, m.position q = c := by
  simp [snapshot, takenPositions, position]

theorem prioritizedAlternatives_head (agent : Tagent σ) :
    ∃ c1 c2, prioritizedAlternatives agent =
      [(agent.getDesiredX, agent.getDesiredY), c1, c2] :=
  ⟨_, _, rfl⟩

end Model

/-! ## Theorems on `move` -/

section moveTheorems

variable {σ : Type}

open Model

/-- C1: with `c0, c1, c2` the three alternatives `move` computes for the agent at
address `a` (`c0` is the desired position), if at least one of them is not a
current position of an agent returned by `getNeighbors`, then after `move` the
agent stands on the first such alternative in the order `c0, c1, c2`. -/
theorem move_selects_first_free (m : Model σ) (a : Nat) (c0 c1 c2 : Int × Int)
    (hc : prioritizedAlternatives (m.mem a) = [c0, c1, c2])
    (hfree : c0 ∉ m.snapshot a ∨ c1 ∉ m.snapshot a ∨ c2 ∉ m.snapshot a) :
    c0 = ((m.mem a).getDesiredX, (m.mem a).getDesiredY) ∧
    (m.move a).position a =
      (if c0 ∉ m.snapshot a then c0 else if c1 ∉ m.snapshot a then c1 else c2) := by
  constructor
  · obtain ⟨d1, d2, hd⟩ := prioritizedAlternatives_head (m.mem a)
    rw [hd] at hc
    exact (List.cons.inj hc).1.symm
  · have hmove : m.move a = commitFirstEmpty m a (m.snapshot a) [c0, c1, c2] := by
      rw [← hc]; rfl
    have hr : ∀ c ∈ [c0, c1, c2], isInt c.1 ∧ isInt c.2 := by
      rw [← hc]
      exact alternatives_isInt (m.mem a)
    have hr0 := hr c0 (by simp)
    have hr1 := hr c1 (by simp)
    have hr2 := hr c2 (by simp)
    rw [hmove]
    by_cases h0 : c0 ∈ m.snapshot a
    · rw [commitFirstEmpty_taken _ _ _ _ _ h0]
      by_cases h1 : c1 ∈ m.snapshot a
      · rw [commitFirstEmpty_taken _ _ _ _ _ h1]
        have h2 : c2 ∉ m.snapshot a := by tauto
        simp only [h0, h1, not_true_eq_false, if_false]
        exact commitFirstEmpty_free _ _ _ _ _ h2 hr2
      · simp only [h0, h1, not_true_eq_false, not_false_eq_true, if_false, if_true]
        exact commitFirstEmpty_free _ _ _ _ _ h1 hr1
    · simp only [h0, not_false_eq_true, if_true]
      exact commitFirstEmpty_free _ _ _ _ _ h0 hr0

/-- Witness of C1: agents 0 and 1 of the example; the desired cell `(5,7)` of
agent 0 is taken by agent 1, so agent 0 ends on its second alternative `(7,7)`. -/
theorem move_selects_first_free_witness :
    prioritizedAlternatives ((exampleModel [0, 1] IMPLEMENTATION.MOVE).mem 0)
        = [(5, 7), (7, 7), (3, 7)] ∧
    (7, 7) ∉ (exampleModel [0, 1] IMPLEMENTATION.MOVE).snapshot 0 ∧
    ((exampleModel [0, 1] IMPLEMENTATION.MOVE).move 0).position 0 = (7, 7) := by
  refine ⟨by decide, by decide, ?_⟩
  have h := (move_selects_first_free (exampleModel [0, 1] IMPLEMENTATION.MOVE) 0
    (5, 7) (7, 7) (3, 7) (by decide) (Or.inr (Or.inl (by decide)))).2
  rw [h]
  decide

/-- C2: if `move` changes the position of the agent at address `a`, the new
position differs from the pre-move position of every agent that `getNeighbors`
returns; these are all agents of the model, the agent itself included when it
belongs to the model.  If the position after `move` does coincide with the
pre-move position of a returned agent, then every alternative was occupied
and the agent did not move. -/
theorem move_avoids_snapshot (m : Model σ) (a : Nat) :
    ((m.move a).position a ≠ m.position a →
      ∀ q ∈ m.getNeighbors (m.mem a).getX (m.mem a).getY 2,
        (m.move a).position a ≠ m.position q) ∧
    (∀ q, q ∈ m.getNeighbors (m.mem a).getX (m.mem a).getY 2 ↔ q ∈ m.agents) ∧
    (∀ q ∈ m.getNeighbors (m.mem a).getX (m.mem a).getY 2,
      (m.move a).position a = m.position q →
        (∀ c ∈ prioritizedAlternatives (m.mem a), c ∈ m.snapshot a) ∧
        (m.move a).position a = m.position a) := by
  have hcases := commitFirstEmpty_cases m a (m.snapshot a) (prioritizedAlternatives (m.mem a))
    (alternatives_isInt (m.mem a))
  have hmove : m.move a = commitFirstEmpty m a (m.snapshot a)
      (prioritizedAlternatives (m.mem a)) := rfl
  refine ⟨?_, fun q => mem_getNeighbors m _ _ _ q, ?_⟩
  · intro hne q hq heq
    rcases hcases with ⟨c, _, hfree, hpos⟩ | ⟨_, hsame⟩
    · apply hfree
      rw [← hmove] at hpos
      rw [← hpos, heq]
      exact (mem_snapshot m a _).mpr ⟨q, hq, rfl⟩
    · apply hne
      rw [hmove, hsame]
  · intro q hq heq
    rcases hcases with ⟨c, _, hfree, hpos⟩ | ⟨hall, hsame⟩
    · exfalso
      apply hfree
      rw [← hmove] at hpos
      rw [← hpos, heq]
      exact (mem_snapshot m a _).mpr ⟨q, hq, rfl⟩
    · refine ⟨hall, ?_⟩
      rw [hmove, hsame]

/-- Witness of C2 (first part): agent 0 of the example moves from `(5,5)` to
`(7,7)`, which is the position of neither agent 0 nor agent 1. -/
theorem move_avoids_snapshot_witness :
    ((exampleModel [0, 1] IMPLEMENTATION.MOVE).move 0).position 0
        ≠ (exampleModel [0, 1] IMPLEMENTATION.MOVE).position 0 ∧
    ∀ q ∈ (exampleModel [0, 1] IMPLEMENTATION.MOVE).getNeighbors
        ((exampleModel [0, 1] IMPLEMENTATION.MOVE).mem 0).getX
        ((exampleModel [0, 1] IMPLEMENTATION.MOVE).mem 0).getY 2,
      ((exampleModel [0, 1] IMPLEMENTATION.MOVE).move 0).position 0
        ≠ (exampleModel [0, 1] IMPLEMENTATION.MOVE).position q :=
  ⟨by decide,
   (move_avoids_snapshot (exampleModel [0, 1] IMPLEMENTATION.MOVE) 0).1 (by decide)⟩

/-- C3: if each of the three alternatives of the agent at address `a` is the
current position of some agent returned by `getNeighbors`, then `move` (a total
function: it always returns) leaves the model as it is; in particular the agent
keeps its position. -/
theorem move_all_occupied (m : Model σ) (a : Nat) (c0 c1 c2 : Int × Int)
    (hc : prioritizedAlternatives (m.mem a) = [c0, c1, c2])
    (h0 : ∃ q ∈ m.getNeighbors (m.mem a).getX (m.mem a).getY 2, m.position q = c0)
    (h1 : ∃ q ∈ m.getNeighbors (m.mem a).getX (m.mem a).getY 2, m.position q = c1)
    (h2 : ∃ q ∈ m.getNeighbors (m.mem a).getX (m.mem a).getY 2, m.position q = c2) :
    m.move a = m ∧ (m.move a).position a = m.position a := by
  have hmove : m.move a = m := by
    have hall : ∀ c ∈ prioritizedAlternatives (m.mem a), c ∈ m.snapshot a := by
      intro c hcmem
      rw [hc] at hcmem
      simp only [List.mem_cons, List.mem_singleton, List.not_mem_nil, or_false] at hcmem
      rcases hcmem with rfl | rfl | rfl
      · exact (mem_snapshot m a _).mpr h0
      · exact (mem_snapshot m a _).mpr h1
      · exact (mem_snapshot m a _).mpr h2
    exact commitFirstEmpty_all_taken m a (m.snapshot a) _ hall
  exact ⟨hmove, by rw [hmove]⟩

/-- Witness of C3: with all four agents of the example in the model, the three
alternatives `(5,7)`, `(7,7)`, `(3,7)` of agent 0 are the positions of agents
1, 2 and 3, and agent 0 stays on `(5,5)`. -/
theorem move_all_occupied_witness :
    ((exampleModel [0, 1, 2, 3] IMPLEMENTATION.MOVE).move 0).position 0 = (5, 5) :=
  (move_all_occupied (exampleModel [0, 1, 2, 3] IMPLEMENTATION.MOVE) 0
    (5, 7) (7, 7) (3, 7) (by decide)
    ⟨1, by decide, by decide⟩ ⟨2, by decide, by decide⟩ ⟨3, by decide, by decide⟩).2.trans
    (by decide)

/-- C9, refuted as stated: the agent on `(0, -2000000000)` with desired position
`(0, 2000000000)` has `dx = 0`; its exact `dy` is `4000000000`, the 32-bit
difference is `-294967296`, and the alternatives of `move` are
`(-294967296, 2000000000)` and `(294967296, 2000000000)`, not the exact
`(desiredX + dy, desiredY + dx) = (4000000000, 2000000000)` and
`(desiredX - dy, desiredY - dx) = (-4000000000, 2000000000)`. -/
theorem straight_alternatives_overflow :
    farAgent.getDesiredX - farAgent.getX = 0 ∧
    farAgent.getDesiredY - farAgent.getY = 4000000000 ∧
    prioritizedAlternatives farAgent =
      [(0, 2000000000), (-294967296, 2000000000), (294967296, 2000000000)] ∧
    prioritizedAlternatives farAgent ≠
      [(farAgent.getDesiredX, farAgent.getDesiredY),
       (farAgent.getDesiredX + (farAgent.getDesiredY - farAgent.getY),
        farAgent.getDesiredY + (farAgent.getDesiredX - farAgent.getX)),
       (farAgent.getDesiredX - (farAgent.getDesiredY - farAgent.getY),
        farAgent.getDesiredY - (farAgent.getDesiredX - farAgent.getX))] := by
  decide

/-- C9, amended: for an agent whose displacement `(dx, dy) = desired - current`
has `dx = 0` or `dy = 0`, the alternatives of `move` are the desired position,
then `(desiredX + dy, desiredY + dx)`, then `(desiredX - dy, desiredY - dx)`,
with `dx`, `dy` and the four sums and differences computed in 32-bit
arithmetic; when none of these operations overflows, they are the exact
values. -/
theorem straight_alternatives (agent : Tagent σ)
    (h : agent.getDesiredX - agent.getX = 0 ∨ agent.getDesiredY - agent.getY = 0) :
    prioritizedAlternatives agent =
      [(agent.getDesiredX, agent.getDesiredY),
       (wrapInt (agent.getDesiredX + wrapInt (agent.getDesiredY - agent.getY)),
        wrapInt (agent.getDesiredY + wrapInt (agent.getDesiredX - agent.getX))),
       (wrapInt (agent.getDesiredX - wrapInt (agent.getDesiredY - agent.getY)),
        wrapInt (agent.getDesiredY - wrapInt (agent.getDesiredX - agent.getX)))] ∧
    (noOverflow agent →
      prioritizedAlternatives agent =
        [(agent.getDesiredX, agent.getDesiredY),
         (agent.getDesiredX + (agent.getDesiredY - agent.getY),
          agent.getDesiredY + (agent.getDesiredX - agent.getX)),
         (agent.getDesiredX - (agent.getDesiredY - agent.getY),
          agent.getDesiredY - (agent.getDesiredX - agent.getX))]) := by
  have hw : prioritizedAlternatives agent =
      [(agent.getDesiredX, agent.getDesiredY),
       (wrapInt (agent.getDesiredX + wrapInt (agent.getDesiredY - agent.getY)),
        wrapInt (agent.getDesiredY + wrapInt (agent.getDesiredX - agent.getX))),
       (wrapInt (agent.getDesiredX - wrapInt (agent.getDesiredY - agent.getY)),
        wrapInt (agent.getDesiredY - wrapInt (agent.getDesiredX - agent.getX)))] := by
    have htest := (straight_test_iff agent).mpr h
    unfold prioritizedAlternatives
    simp only [htest, if_true]
  refine ⟨hw, ?_⟩
  intro hno
  obtain ⟨hdx, hdy, hsums⟩ := hno
  obtain ⟨h1, h2, h3, h4⟩ := hsums h
  rw [hw, wrapInt_eq_self _ hdx, wrapInt_eq_self _ hdy, wrapInt_eq_self _ h1,
    wrapInt_eq_self _ h2, wrapInt_eq_self _ h3, wrapInt_eq_self _ h4]

/-- Witness of C9 amended, the example of the claim: current `(5,5)`, desired
`(5,7)` gives the alternatives `(7,7)` and `(3,7)` after the desired
position. -/
theorem straight_alternatives_witness :
    (exampleMem 0).getX = 5 ∧ (exampleMem 0).getY = 5 ∧
    (exampleMem 0).getDesiredX - (exampleMem 0).getX = 0 ∧
    noOverflow (exampleMem 0) ∧
    prioritizedAlternatives (exampleMem 0) = [(5, 7), (7, 7), (3, 7)] :=
  ⟨by decide, by decide, by decide, by decide,
   ((straight_alternatives (exampleMem 0) (Or.inl (by decide))).2 (by decide)).trans
     (by decide)⟩

/-- C10: for an agent whose displacement has `dx ≠ 0` and `dy ≠ 0`, the
alternatives of `move` are the desired position, then `(desiredX, currentY)`,
then `(currentX, desiredY)`, in that order. -/
theorem diagonal_alternatives (agent : Tagent σ)
    (hx : agent.getDesiredX - agent.getX ≠ 0) (hy : agent.getDesiredY - agent.getY ≠ 0) :
    prioritizedAlternatives agent =
      [(agent.getDesiredX, agent.getDesiredY),
       (agent.getDesiredX, agent.getY),
       (agent.getX, agent.getDesiredY)] := by
  have htest : ¬ (wrapInt (agent.getDesiredX - agent.getX) = 0 ∨
      wrapInt (agent.getDesiredY - agent.getY) = 0) := by
    rw [straight_test_iff]
    exact not_or.mpr ⟨hx, hy⟩
  unfold prioritizedAlternatives
  simp only [htest, if_false]

/-- Witness of C10: current `(2,3)`, desired `(3,4)` gives the alternatives
`(3,3)` and `(2,4)` after the desired position. -/
theorem diagonal_alternatives_witness :
    prioritizedAlternatives diagonalAgent = [(3, 4), (3, 3), (2, 4)] :=
  (diagonal_alternatives diagonalAgent (by decide) (by decide)).trans (by decide)

end moveTheorems

/-! ## Lemmas on the loop body of `tick` -/

section tickLemmas

variable {σ : Type}

theorem computeAndCommit_mem (compute : Tagent σ → Tagent σ) (r : Run σ) (p q : Nat) :
    (computeAndCommit compute r p).model.mem q =
      if q = p then committed (compute (r.model.mem p)) else r.model.mem q := by
  by_cases h : q = p <;> simp [computeAndCommit, Model.write, committed, h]

theorem computeAndCommit_agents (compute : Tagent σ → Tagent σ) (r : Run σ) (p : Nat) :
    (computeAndCommit compute r p).model.agents = r.model.agents := rfl

theorem computeAndCommit_calls (compute : Tagent σ → Tagent σ) (r : Run σ) (p : Nat) :
    (computeAndCommit compute r p).calls = r.calls ++ [p] := rfl

theorem foldl_computeAndCommit_calls (compute : Tagent σ → Tagent σ) :
    ∀ (l : List Nat) (r : Run σ),
      (l.foldl (computeAndCommit compute) r).calls = r.calls ++ l
  | [], r => by simp
  | p :: l, r => by
    rw [List.foldl_cons, foldl_computeAndCommit_calls compute l, computeAndCommit_calls]
    simp

theorem foldl_computeAndCommit_agents (compute : Tagent σ → Tagent σ) :
    ∀ (l : List Nat) (r : Run σ),
      (l.foldl (computeAndCommit compute) r).model.agents = r.model.agents
  | [], _ => rfl
  | p :: l, r => by
    rw [List.foldl_cons, foldl_computeAndCommit_agents compute l, computeAndCommit_agents]

/-- An agent that the loop does not visit keeps its state. -/
theorem foldl_computeAndCommit_untouched (compute : Tagent σ → Tagent σ) (q : Nat) :
    ∀ (l : List Nat) (r : Run σ), q ∉ l →
      (l.foldl (computeAndCommit compute) r).model.mem q = r.model.mem q
  | [], _, _ => rfl
  | p :: l, r, h => by
    have hqp : q ≠ p := fun e => h (e ▸ List.mem_cons_self _ _)
    have hql : q ∉ l := fun e => h (List.mem_cons_of_mem _ e)
    rw [List.foldl_cons, foldl_computeAndCommit_untouched compute q l _ hql,
      computeAndCommit_mem, if_neg hqp]

theorem committed_getX (v : Tagent σ) : (committed v).getX = v.getDesiredX :=
  wrapInt_eq_self _ v.isInt_getDesiredX

theorem committed_getY (v : Tagent σ) : (committed v).getY = v.getDesiredY :=
  wrapInt_eq_self _ v.isInt_getDesiredY

theorem committed_getDesiredX (v : Tagent σ) : (committed v).getDesiredX = v.getDesiredX := rfl

theorem committed_getDesiredY (v : Tagent σ) : (committed v).getDesiredY = v.getDesiredY := rfl

/-- After the loop every visited agent stands on its desired position. -/
theorem foldl_computeAndCommit_onDesired (compute : Tagent σ → Tagent σ) (q : Nat) :
    ∀ (l : List Nat) (r : Run σ), q ∈ l →
      ((l.foldl (computeAndCommit compute) r).model.mem q).getX =
        ((l.foldl (computeAndCommit compute) r).model.mem q).getDesiredX ∧
      ((l.foldl (computeAndCommit compute) r).model.mem q).getY =
        ((l.foldl (computeAndCommit compute) r).model.mem q).getDesiredY
  | p :: l, r, h => by
    rw [List.foldl_cons]
    by_cases hql : q ∈ l
    · exact foldl_computeAndCommit_onDesired compute q l _ hql
    · have hqp : q = p := by
        rcases List.mem_cons.mp h with e | e
        · exact e
        · exact absurd e hql
      rw [foldl_computeAndCommit_untouched compute q l _ hql, computeAndCommit_mem, if_pos hqp]
      exact ⟨(committed_getX _).trans (committed_getDesiredX _).symm,
        (committed_getY _).trans (committed_getDesiredY _).symm⟩

/-- When no address occurs twice, the final state of a visited agent is the
committed result of one call of `compute` on its initial state. -/
theorem foldl_computeAndCommit_once (compute : Tagent σ → Tagent σ) (q : Nat) :
    ∀ (l : List Nat) (r : Run σ), l.Nodup → q ∈ l →
      (l.foldl (computeAndCommit compute) r).model.mem q = committed (compute (r.model.mem q))
  | p :: l, r, hnd, h => by
    rw [List.foldl_cons]
    have hpl : p ∉ l := (List.nodup_cons.mp hnd).1
    by_cases hql : q ∈ l
    · have hqp : q ≠ p := fun e => hpl (e ▸ hql)
      rw [foldl_computeAndCommit_once compute q l _ (List.nodup_cons.mp hnd).2 hql,
        computeAndCommit_mem, if_neg hqp]
    · have hqp : q = p := by
        rcases List.mem_cons.mp h with e | e
        · exact e
        · exact absurd e hql
      rw [foldl_computeAndCommit_untouched compute q l _ hql, computeAndCommit_mem, if_pos hqp,
        hqp]

theorem vectorLoop_stuck (size : Nat) (h : 0 < size) :
    ∀ fuel : Nat, vectorLoop size fuel 0 = none
  | 0 => rfl
  | fuel + 1 => by
    rw [vectorLoop, if_pos h]
    exact vectorLoop_stuck size h fuel

/-- Indices that are all in range, visited in some order, give the fold of the
loop body over the agents they select. -/
theorem runIndices_eq_foldl (compute : Tagent σ → Tagent σ) (A : List Nat) :
    ∀ (l ps : List Nat) (r : Run σ), r.model.agents = A →
      l.map (fun i => A[i]?) = ps.map some →
      runIndices compute l r = Outcome.done (ps.foldl (computeAndCommit compute) r)
  | [], [], _, _, _ => rfl
  | [], _ :: _, _, _, h => by simp at h
  | _ :: _, [], _, _, h => by simp at h
  | index :: l, p :: ps, r, hA, h => by
    simp only [List.map_cons, List.cons.injEq] at h
    simp only [runIndices, hA, h.1, List.foldl_cons]
    exact runIndices_eq_foldl compute A l ps _ ((computeAndCommit_agents compute r p).trans hA) h.2

/-- With pairwise distinct agent pointers, the OpenMP loop leaves every agent
object in the state the SEQ loop leaves it in, whatever the order in which the
runtime executes the iterations `0, ..., size - 1`. -/
theorem runIndices_perm_mem (compute : Tagent σ → Tagent σ) (sched : List Nat) (m : Model σ)
    (hnd : m.agents.Nodup) (hs : sched.Perm (List.range m.agents.length)) :
    ∃ r : Run σ, runIndices compute sched ⟨m, []⟩ = Outcome.done r ∧
      r.model.mem = (m.agents.foldl (computeAndCommit compute) ⟨m, []⟩).model.mem := by
  have hmap : sched.map (fun i => m.agents[i]?) = (sched.map (fun i => m.agents.getD i 0)).map some := by
    rw [List.map_map]
    apply List.map_congr_left
    intro i hi
    have hlt : i < m.agents.length := List.mem_range.mp (hs.mem_iff.mp hi)
    simp [List.getD_eq_getElem _ _ hlt, List.getElem?_eq_getElem hlt]
  have hrange : (List.range m.agents.length).map (fun i => m.agents.getD i 0) = m.agents := by
    apply List.ext_getElem
    · simp
    · intro n h1 h2
      simp [List.getElem?_eq_getElem h2]
  have hperm : (sched.map (fun i => m.agents.getD i 0)).Perm m.agents := by
    have h1 := hs.map (fun i => m.agents.getD i 0)
    rwa [hrange] at h1
  refine ⟨_, runIndices_eq_foldl compute m.agents sched _ ⟨m, []⟩ rfl hmap, ?_⟩
  funext q
  by_cases hq : q ∈ m.agents
  · rw [foldl_computeAndCommit_once compute q _ _ (hperm.nodup_iff.mpr hnd) (hperm.mem_iff.mpr hq),
      foldl_computeAndCommit_once compute q _ _ hnd hq]
  · rw [foldl_computeAndCommit_untouched compute q _ _ (fun h => hq (hperm.mem_iff.mp h)),
      foldl_computeAndCommit_untouched compute q _ _ hq]

/-- With at least one agent the VECTOR branch never leaves its loop. -/
theorem tick_VECTOR_outOfFuel (compute : Tagent σ → Tagent σ) (sched : List Nat) (m : Model σ)
    (hv : m.implementation = IMPLEMENTATION.VECTOR) (hne : 0 < m.agents.length) (fuel : Nat) :
    tick compute sched fuel m = Outcome.outOfFuel := by
  simp [tick, hv, vectorLoop_stuck m.agents.length hne fuel]

end tickLemmas

/-! ## Theorems on `tick` -/

section tickTheorems

variable {σ : Type}

/-- C5: one `tick` in SEQ mode returns; it calls `computeNextDesiredPosition`
once for every entry of `agents`, in index order; afterwards every agent stands
on its desired position; and when no agent is listed twice, the final state of
each agent is the one call of `computeNextDesiredPosition` on its initial state
followed by the commit, so its position is the desired position that this call
produced. -/
theorem tick_SEQ_computes_and_commits (compute : Tagent σ → Tagent σ) (sched : List Nat)
    (fuel : Nat) (m : Model σ) (h : m.implementation = IMPLEMENTATION.SEQ) :
    ∃ r : Run σ, tick compute sched fuel m = Outcome.done r ∧
      r.calls = m.agents ∧
      r.model.agents = m.agents ∧
      (∀ p ∈ m.agents, (r.model.mem p).getX = (r.model.mem p).getDesiredX ∧
        (r.model.mem p).getY = (r.model.mem p).getDesiredY) ∧
      (m.agents.Nodup → ∀ p ∈ m.agents,
        r.model.mem p = committed (compute (m.mem p)) ∧
        r.model.position p =
          ((compute (m.mem p)).getDesiredX, (compute (m.mem p)).getDesiredY)) := by
  refine ⟨m.agents.foldl (computeAndCommit compute) ⟨m, []⟩, ?_, ?_, ?_, ?_, ?_⟩
  · simp [tick, h]
  · simp [foldl_computeAndCommit_calls]
  · exact foldl_computeAndCommit_agents compute _ _
  · intro p hp
    exact foldl_computeAndCommit_onDesired compute p _ _ hp
  · intro hnd p hp
    have hmem := foldl_computeAndCommit_once compute p m.agents ⟨m, []⟩ hnd hp
    refine ⟨hmem, ?_⟩
    simp only [Model.position, hmem, committed_getX, committed_getY]

/-- Witness of C5: agents 2, 0, 1 of the example, each stepping one cell to the
right. -/
theorem tick_SEQ_computes_and_commits_witness :
    ∃ r : Run Unit,
      tick stepRight [] 0 (exampleModel [2, 0, 1] IMPLEMENTATION.SEQ) = Outcome.done r ∧
      r.calls = [2, 0, 1] ∧ positions r.model = [(8, 7), (6, 5), (6, 7)] := by
  obtain ⟨r, hr, hcalls, hagents, _, hpos⟩ :=
    tick_SEQ_computes_and_commits stepRight [] 0 (exampleModel [2, 0, 1] IMPLEMENTATION.SEQ) rfl
  refine ⟨r, hr, hcalls, ?_⟩
  have hp := hpos (by decide)
  simp only [positions, hagents]
  simp only [exampleModel, List.map_cons, List.map_nil] at hp ⊢
  rw [(hp 2 (by decide)).2, (hp 0 (by decide)).2, (hp 1 (by decide)).2]
  decide

/-- C4, evaluated on one agent at `(5,5)` whose computation asks for one step to
the right: the SEQ, OMP and PTHREAD ticks return with the agent on `(6,5)`, while
the VECTOR tick is still in its loop after any number of steps, and so never
produces final positions; the same holds for runs of several ticks. -/
theorem tick_VECTOR_disagrees :
    (∃ r : Run Unit, tick stepRight [] 0 (exampleModel [0] IMPLEMENTATION.SEQ) = Outcome.done r ∧
      positions r.model = [(6, 5)]) ∧
    (∃ r : Run Unit, tick stepRight [0] 0 (exampleModel [0] IMPLEMENTATION.OMP) = Outcome.done r ∧
      positions r.model = [(6, 5)]) ∧
    (∃ r : Run Unit, tick stepRight [] 0 (exampleModel [0] IMPLEMENTATION.PTHREAD) = Outcome.done r ∧
      positions r.model = [(6, 5)]) ∧
    (∀ fuel : Nat,
      tick stepRight [] fuel (exampleModel [0] IMPLEMENTATION.VECTOR) = Outcome.outOfFuel) ∧
    (∃ m : Model Unit,
      ticks stepRight (fun _ => []) 0 2 (exampleModel [0] IMPLEMENTATION.SEQ) = Outcome.done m ∧
      positions m = [(7, 5)]) ∧
    (∀ k fuel : Nat,
      ticks stepRight (fun _ => []) fuel (k + 1) (exampleModel [0] IMPLEMENTATION.VECTOR)
        = Outcome.outOfFuel) := by
  refine ⟨⟨_, rfl, by decide⟩, ⟨_, rfl, by decide⟩, ⟨_, rfl, by decide⟩,
    fun fuel => tick_VECTOR_outOfFuel stepRight [] _ rfl (by decide) fuel,
    ⟨_, rfl, by decide⟩, ?_⟩
  intro k fuel
  rw [ticks, tick_VECTOR_outOfFuel stepRight [] _ rfl (by decide) fuel]

/-- C7, evaluated on an empty collection: the SEQ, OMP and VECTOR ticks return the
model as it is (the VECTOR loop needs one test of its condition), while the
PTHREAD tick clamps `num_threads` to 0 and then divides by it. -/
theorem tick_empty_PTHREAD_divides_by_zero (compute : Tagent σ → Tagent σ)
    (mem : Nat → Tagent σ) (fuel : Nat) :
    tick compute [] fuel ⟨[], mem, IMPLEMENTATION.SEQ⟩
      = Outcome.done ⟨⟨[], mem, IMPLEMENTATION.SEQ⟩, []⟩ ∧
    tick compute [] fuel ⟨[], mem, IMPLEMENTATION.OMP⟩
      = Outcome.done ⟨⟨[], mem, IMPLEMENTATION.OMP⟩, []⟩ ∧
    tick compute [] (fuel + 1) ⟨[], mem, IMPLEMENTATION.VECTOR⟩
      = Outcome.done ⟨⟨[], mem, IMPLEMENTATION.VECTOR⟩, []⟩ ∧
    tick compute [] fuel ⟨[], mem, IMPLEMENTATION.PTHREAD⟩
      = Outcome.fault Fault.divisionByZero :=
  ⟨rfl, rfl, rfl, rfl⟩

/-- C8, evaluated at zero agents: the clamp is `min` of the requested count and
the number of agents, so with no agents the thread count becomes 0 for every
requested count, the source value 1 included, and the PTHREAD branch stops at
the division by it. -/
theorem clampThreads_zero_agents :
    (∀ requested N : Nat, clampThreads requested N = min requested N) ∧
    (∀ requested : Nat, clampThreads requested 0 = 0) ∧
    clampThreads 1 0 = 0 ∧
    ∀ (compute : Tagent σ → Tagent σ) (requested : Nat) (mem : Nat → Tagent σ)
      (impl : IMPLEMENTATION),
      tickPTHREAD compute requested ⟨[], mem, impl⟩ = Outcome.fault Fault.divisionByZero := by
  have hmin : ∀ requested N : Nat, clampThreads requested N = min requested N := by
    intro requested N
    unfold clampThreads
    split_ifs with h
    · exact (Nat.min_eq_right (by omega)).symm
    · exact (Nat.min_eq_left (by omega)).symm
  have hzero : ∀ requested : Nat, clampThreads requested 0 = 0 := by
    intro requested
    rw [hmin]
    exact Nat.min_eq_right (Nat.zero_le _)
  refine ⟨hmin, hzero, hzero 1, ?_⟩
  intro compute requested mem impl
  simp [tickPTHREAD, hzero]

end tickTheorems

/-! ## What `move` leaves alone -/

namespace Model

variable {σ : Type}

theorem commitFirstEmpty_agents (m : Model σ) (a : Nat) (taken : List (Int × Int)) :
    ∀ alts : List (Int × Int), (commitFirstEmpty m a taken alts).agents = m.agents
  | [] => rfl
  | it :: rest => by
    by_cases h : it ∈ taken
    · rw [commitFirstEmpty_taken m a taken it rest h]
      exact commitFirstEmpty_agents m a taken rest
    · simp [commitFirstEmpty, h, write]

theorem commitFirstEmpty_implementation (m : Model σ) (a : Nat) (taken : List (Int × Int)) :
    ∀ alts : List (Int × Int),
      (commitFirstEmpty m a taken alts).implementation = m.implementation
  | [] => rfl
  | it :: rest => by
    by_cases h : it ∈ taken
    · rw [commitFirstEmpty_taken m a taken it rest h]
      exact commitFirstEmpty_implementation m a taken rest
    · simp [commitFirstEmpty, h, write]

theorem commitFirstEmpty_mem_other (m : Model σ) (a q : Nat) (hq : q ≠ a)
    (taken : List (Int × Int)) :
    ∀ alts : List (Int × Int), (commitFirstEmpty m a taken alts).mem q = m.mem q
  | [] => rfl
  | it :: rest => by
    by_cases h : it ∈ taken
    · rw [commitFirstEmpty_taken m a taken it rest h]
      exact commitFirstEmpty_mem_other m a q hq taken rest
    · simp [commitFirstEmpty, h, write, hq]

theorem commitFirstEmpty_desired (m : Model σ) (a : Nat) (taken : List (Int × Int)) :
    ∀ alts : List (Int × Int),
      ((commitFirstEmpty m a taken alts).mem a).getDesiredX = (m.mem a).getDesiredX ∧
      ((commitFirstEmpty m a taken alts).mem a).getDesiredY = (m.mem a).getDesiredY ∧
      ((commitFirstEmpty m a taken alts).mem a).rest = (m.mem a).rest
  | [] => ⟨rfl, rfl, rfl⟩
  | it :: rest => by
    by_cases h : it ∈ taken
    · rw [commitFirstEmpty_taken m a taken it rest h]
      exact commitFirstEmpty_desired m a taken rest
    · simp [commitFirstEmpty, h, write, Tagent.setX, Tagent.setY, Tagent.getDesiredX,
        Tagent.getDesiredY]

theorem move_agents (m : Model σ) (a : Nat) : (m.move a).agents = m.agents :=
  commitFirstEmpty_agents m a _ _

theorem move_mem_other (m : Model σ) (a q : Nat) (hq : q ≠ a) :
    (m.move a).mem q = m.mem q :=
  commitFirstEmpty_mem_other m a q hq _ _

theorem move_position_other (m : Model σ) (a q : Nat) (hq : q ≠ a) :
    (m.move a).position q = m.position q := by
  simp only [position, move_mem_other m a q hq]

/-- After `move` the agent stands on a cell that was not in the snapshot, or
nothing has changed. -/
theorem move_cases (m : Model σ) (a : Nat) :
    (m.move a).position a ∉ m.snapshot a ∨ m.move a = m := by
  rcases commitFirstEmpty_cases m a (m.snapshot a) (prioritizedAlternatives (m.mem a))
      (alternatives_isInt (m.mem a)) with
    ⟨c, _, hfree, hpos⟩ | ⟨_, hsame⟩
  · left
    have hmove : m.move a = commitFirstEmpty m a (m.snapshot a)
        (prioritizedAlternatives (m.mem a)) := rfl
    rw [hmove, hpos]
    exact hfree
  · exact Or.inr hsame

theorem position_mem_snapshot (m : Model σ) (a q : Nat) (hq : q ∈ m.agents) :
    m.position q ∈ m.snapshot a :=
  (mem_snapshot m a _).mpr ⟨q, (mem_getNeighbors m _ _ _ q).mpr hq, rfl⟩

/-- The alternatives depend on the current and the desired position only. -/
theorem prioritizedAlternatives_congr {τ : Type} (u : Tagent σ) (v : Tagent τ)
    (hx : u.getX = v.getX) (hy : u.getY = v.getY)
    (hdx : u.getDesiredX = v.getDesiredX) (hdy : u.getDesiredY = v.getDesiredY) :
    prioritizedAlternatives u = prioritizedAlternatives v := by
  unfold prioritizedAlternatives
  rw [hx, hy, hdx, hdy]

/-- The position the last loop of `move` leaves the agent on depends on the
taken positions as a set only. -/
theorem commitFirstEmpty_position_congr {τ : Type} (m1 : Model σ) (m2 : Model τ) (a b : Nat)
    (t1 t2 : List (Int × Int)) (hset : ∀ c, c ∈ t1 ↔ c ∈ t2)
    (hpos : m1.position a = m2.position b) :
    ∀ alts : List (Int × Int), (∀ c ∈ alts, isInt c.1 ∧ isInt c.2) →
      (commitFirstEmpty m1 a t1 alts).position a = (commitFirstEmpty m2 b t2 alts).position b
  | [], _ => hpos
  | it :: rest, hr => by
    have hit := hr it (List.mem_cons_self _ _)
    by_cases h : it ∈ t1
    · rw [commitFirstEmpty_taken m1 a t1 it rest h,
        commitFirstEmpty_taken m2 b t2 it rest ((hset it).mp h)]
      exact commitFirstEmpty_position_congr m1 m2 a b t1 t2 hset hpos rest
        (fun c hc => hr c (List.mem_cons_of_mem _ hc))
    · rw [commitFirstEmpty_free m1 a t1 it rest h hit,
        commitFirstEmpty_free m2 b t2 it rest (fun h2 => h ((hset it).mpr h2)) hit]

theorem setInsert_sorted (p : Nat) :
    ∀ s : List Nat, s.Pairwise (fun u v => u < v) →
      (setInsert p s).Pairwise (fun u v => u < v)
  | [], _ => by simp [setInsert]
  | q :: s, h => by
    have hq := List.pairwise_cons.mp h
    unfold setInsert
    split_ifs with h1 h2
    · refine List.pairwise_cons.mpr ⟨?_, h⟩
      intro r hr
      rcases List.mem_cons.mp hr with rfl | hr
      · exact h1
      · exact Nat.lt_trans h1 (hq.1 r hr)
    · exact h
    · refine List.pairwise_cons.mpr ⟨?_, setInsert_sorted p s hq.2⟩
      intro r hr
      rcases (mem_setInsert p r s).mp hr with rfl | hr
      · omega
      · exact hq.1 r hr

theorem foldl_setInsert_sorted :
    ∀ (l s : List Nat), s.Pairwise (fun u v => u < v) →
      (l.foldl (fun s p => setInsert p s) s).Pairwise (fun u v => u < v)
  | [], _, h => h
  | p :: l, s, h => foldl_setInsert_sorted l (setInsert p s) (setInsert_sorted p s h)

theorem distinctPositions_move (m : Model σ) (h : m.distinctPositions) (a : Nat) :
    (m.move a).distinctPositions := by
  intro p hp q hq heq
  rw [move_agents] at hp hq
  rcases move_cases m a with hfree | hsame
  · by_cases hpa : p = a
    · by_cases hqa : q = a
      · rw [hpa, hqa]
      · exfalso
        apply hfree
        rw [hpa, move_position_other m a q hqa] at heq
        rw [heq]
        exact position_mem_snapshot m a q hq
    · by_cases hqa : q = a
      · exfalso
        apply hfree
        rw [hqa, move_position_other m a p hpa] at heq
        rw [← heq]
        exact position_mem_snapshot m a p hp
      · rw [move_position_other m a p hpa, move_position_other m a q hqa] at heq
        exact h p hp q hq heq
  · rw [hsame] at heq
    exact h p hp q hq heq

theorem distinctPositions_moves :
    ∀ (l : List Nat) (m : Model σ), m.distinctPositions → (m.moves l).distinctPositions
  | [], _, h => h
  | a :: l, m, h => distinctPositions_moves l (m.move a) (distinctPositions_move m h a)

end Model

/-! ## Further theorems on `move` and `getNeighbors` -/

section moveTheorems2

variable {σ : Type}

open Model

/-- C11: let `A` and `B` be two distinct agents of the model and `D` the desired
position of `B` (and of `A`, in the claim).  If `move(A)` places `A` on `D`,
that is `A` does not stand on `D` before the call and stands on `D` after it,
then `D` is the first alternative of `B`, it is taken in the snapshot of the
following `move(B)`, and after `move(B)` the agent `B` does not stand on `D`.
The statement needs no assumption on the desired position of `A`. -/
theorem second_mover_not_on_desired (m : Model σ) (A B : Nat) (D : Int × Int)
    (hA : A ∈ m.agents) (hB : B ∈ m.agents) (hAB : A ≠ B)
    (hDB : ((m.mem B).getDesiredX, (m.mem B).getDesiredY) = D)
    (hbefore : m.position A ≠ D) (hafter : (m.move A).position A = D) :
    (prioritizedAlternatives ((m.move A).mem B)).head? = some D ∧
    D ∈ (m.move A).snapshot B ∧
    ((m.move A).move B).position B ≠ D := by
  have hBA : B ≠ A := fun e => hAB e.symm
  have hfreeA : D ∉ m.snapshot A := by
    rcases move_cases m A with hfree | hsame
    · rwa [hafter] at hfree
    · rw [hsame] at hafter
      exact absurd hafter hbefore
  have hBpos : m.position B ≠ D := fun e => hfreeA (e ▸ position_mem_snapshot m A B hB)
  have hDtaken : D ∈ (m.move A).snapshot B := by
    rw [← hafter]
    exact position_mem_snapshot (m.move A) B A (by rw [move_agents]; exact hA)
  refine ⟨?_, hDtaken, ?_⟩
  · rw [move_mem_other m A B hBA, ← hDB]
    rfl
  · rcases move_cases (m.move A) B with hfree | hsame
    · intro e
      exact hfree (e ▸ hDtaken)
    · rw [hsame, move_position_other m A B hBA]
      exact hBpos

/-- Witness of C11: agents 0 and 1 of the collision scenario both want `(5,7)`;
agent 0 moves first and gets it, agent 1 then ends on `(3,7)`. -/
theorem second_mover_not_on_desired_witness :
    ((collisionModel [0, 1]).move 0).position 0 = (5, 7) ∧
    (((collisionModel [0, 1]).move 0).move 1).position 1 = (3, 7) ∧
    (((collisionModel [0, 1]).move 0).move 1).position 1 ≠ (5, 7) :=
  ⟨by decide, by decide,
   (second_mover_not_on_desired (collisionModel [0, 1]) 0 1 (5, 7)
      (by decide) (by decide) (by decide) (by decide) (by decide) (by decide)).2.2⟩

/-- C12, refuted as stated: in the collision scenario agent 0 is placed on the
common desired cell `(5,7)`, the alternatives `(3,7)` and `(7,7)` of agent 1
are occupied by agents 3 and 2, and agent 1 stays on `(5,9)`, which is neither
of its alternatives 1 and 2. -/
theorem second_mover_blocked_stays :
    (0 : Nat) ∈ (collisionModel [0, 1, 2, 3]).agents ∧
    (1 : Nat) ∈ (collisionModel [0, 1, 2, 3]).agents ∧
    (((collisionModel [0, 1, 2, 3]).mem 0).getDesiredX,
      ((collisionModel [0, 1, 2, 3]).mem 0).getDesiredY) = (5, 7) ∧
    (((collisionModel [0, 1, 2, 3]).mem 1).getDesiredX,
      ((collisionModel [0, 1, 2, 3]).mem 1).getDesiredY) = (5, 7) ∧
    (collisionModel [0, 1, 2, 3]).position 0 ≠ (5, 7) ∧
    ((collisionModel [0, 1, 2, 3]).move 0).position 0 = (5, 7) ∧
    prioritizedAlternatives (((collisionModel [0, 1, 2, 3]).move 0).mem 1)
      = [(5, 7), (3, 7), (7, 7)] ∧
    (((collisionModel [0, 1, 2, 3]).move 0).move 1).position 1 = (5, 9) ∧
    ¬ ((((collisionModel [0, 1, 2, 3]).move 0).move 1).position 1 = (3, 7) ∨
       (((collisionModel [0, 1, 2, 3]).move 0).move 1).position 1 = (7, 7)) := by
  decide

/-- C12, amended: let `A` be an agent of the model, `B` another agent whose
alternatives are `D, c1, c2`, and let `A` stand on `D` after `move(A)`.  Then
after the following `move(B)` the agent `B` stands on `c1` if `c1` is not taken
in the snapshot of that call, else on `c2` if `c2` is not taken, and else on the
cell it stood on before; so it stands on `c1` or `c2` whenever one of the two
is not taken. -/
theorem second_mover_next_free (m : Model σ) (A B : Nat) (D c1 c2 : Int × Int)
    (hA : A ∈ m.agents) (hAB : A ≠ B)
    (hc : prioritizedAlternatives (m.mem B) = [D, c1, c2])
    (hafter : (m.move A).position A = D) :
    ((m.move A).move B).position B =
      (if c1 ∉ (m.move A).snapshot B then c1
       else if c2 ∉ (m.move A).snapshot B then c2
       else m.position B) ∧
    ((c1 ∉ (m.move A).snapshot B ∨ c2 ∉ (m.move A).snapshot B) →
      ((m.move A).move B).position B = c1 ∨ ((m.move A).move B).position B = c2) := by
  have hBA : B ≠ A := fun e => hAB e.symm
  have hDtaken : D ∈ (m.move A).snapshot B := by
    rw [← hafter]
    exact position_mem_snapshot (m.move A) B A (by rw [move_agents]; exact hA)
  have hmove : (m.move A).move B =
      commitFirstEmpty (m.move A) B ((m.move A).snapshot B) [D, c1, c2] := by
    rw [← hc, ← move_mem_other m A B hBA]
    rfl
  have hr : ∀ c ∈ [D, c1, c2], isInt c.1 ∧ isInt c.2 := by
    rw [← hc]
    exact alternatives_isInt (m.mem B)
  have hr1 := hr c1 (by simp)
  have hr2 := hr c2 (by simp)
  have hfirst : ((m.move A).move B).position B =
      (if c1 ∉ (m.move A).snapshot B then c1
       else if c2 ∉ (m.move A).snapshot B then c2
       else m.position B) := by
    rw [hmove, commitFirstEmpty_taken _ _ _ _ _ hDtaken]
    by_cases h1 : c1 ∈ (m.move A).snapshot B
    · rw [commitFirstEmpty_taken _ _ _ _ _ h1]
      by_cases h2 : c2 ∈ (m.move A).snapshot B
      · rw [commitFirstEmpty_taken _ _ _ _ _ h2]
        simp only [h1, h2, not_true_eq_false, if_false]
        exact move_position_other m A B hBA
      · simp only [h1, h2, not_true_eq_false, not_false_eq_true, if_false, if_true]
        exact commitFirstEmpty_free _ _ _ _ _ h2 hr2
    · simp only [h1, not_false_eq_true, if_true]
      exact commitFirstEmpty_free _ _ _ _ _ h1 hr1
  refine ⟨hfirst, ?_⟩
  intro hfree
  rw [hfirst]
  by_cases h1 : c1 ∈ (m.move A).snapshot B
  · have h2 : c2 ∉ (m.move A).snapshot B := by tauto
    right
    simp only [h1, h2, not_true_eq_false, not_false_eq_true, if_false, if_true]
  · left
    simp only [h1, not_false_eq_true, if_true]

/-- Witness of C12 amended: with agents 0, 1 and 3 of the collision scenario,
alternative `(3,7)` of agent 1 is taken by agent 3 and agent 1 ends on `(7,7)`. -/
theorem second_mover_next_free_witness :
    (((collisionModel [0, 1, 3]).move 0).move 1).position 1 = (7, 7) :=
  (second_mover_next_free (collisionModel [0, 1, 3]) 0 1 (5, 7) (3, 7) (7, 7)
    (by decide) (by decide) (by decide) (by decide)).1.trans (by decide)

/-- C13: for all `x`, `y`, `dist` the result of `getNeighbors` contains exactly
the addresses listed in `agents`, each once (it is a set, iterated in ascending
address order), and it is the same for all values of `x`, `y` and `dist`. -/
theorem getNeighbors_all_agents (m : Model σ) (x y dist : Int) :
    (∀ q : Nat, q ∈ m.getNeighbors x y dist ↔ q ∈ m.agents) ∧
    (m.getNeighbors x y dist).Pairwise (fun u v => u < v) ∧
    (m.getNeighbors x y dist).Nodup ∧
    ∀ x2 y2 dist2 : Int, m.getNeighbors x2 y2 dist2 = m.getNeighbors x y dist := by
  have hsorted : (m.getNeighbors x y dist).Pairwise (fun u v => u < v) :=
    foldl_setInsert_sorted m.agents [] List.Pairwise.nil
  refine ⟨fun q => mem_getNeighbors m x y dist q, hsorted, ?_, fun _ _ _ => rfl⟩
  exact hsorted.imp (fun h => Nat.ne_of_lt h)

/-- C16: `move(a)` changes nothing but the current position of `a`: the vector
`agents` (members and order) and the implementation are the same, the desired
position and the remaining state of `a` are the same, and every other agent
object is the same. -/
theorem move_frame (m : Model σ) (a : Nat) :
    (m.move a).agents = m.agents ∧
    (m.move a).implementation = m.implementation ∧
    ((m.move a).mem a).getDesiredX = (m.mem a).getDesiredX ∧
    ((m.move a).mem a).getDesiredY = (m.mem a).getDesiredY ∧
    ((m.move a).mem a).rest = (m.mem a).rest ∧
    ∀ q : Nat, q ≠ a → (m.move a).mem q = m.mem q :=
  ⟨move_agents m a, commitFirstEmpty_implementation m a _ _,
   (commitFirstEmpty_desired m a _ _).1, (commitFirstEmpty_desired m a _ _).2.1,
   (commitFirstEmpty_desired m a _ _).2.2, fun q hq => move_mem_other m a q hq⟩

/-- Witness of C16: moving agent 0 of the example leaves agent 1 on `(5,7)`. -/
theorem move_frame_witness :
    (1 : Nat) ≠ 0 ∧
    ((exampleModel [0, 1] IMPLEMENTATION.MOVE).move 0).mem 1
      = (exampleModel [0, 1] IMPLEMENTATION.MOVE).mem 1 :=
  ⟨by decide, (move_frame (exampleModel [0, 1] IMPLEMENTATION.MOVE) 0).2.2.2.2.2 1 (by decide)⟩

/-- C17: if the current positions of the agents of the model are pairwise
distinct, they are pairwise distinct after `move(a)` for every agent `a`, and
after every finite sequence of calls of `move`. -/
theorem move_preserves_distinctPositions (m : Model σ) (h : m.distinctPositions) :
    (∀ a : Nat, (m.move a).distinctPositions) ∧
    ∀ l : List Nat, (m.moves l).distinctPositions :=
  ⟨fun a => distinctPositions_move m h a, fun l => distinctPositions_moves l m h⟩

/-- Witness of C17: the four agents of the collision scenario stand on four
cells, and still do after the moves of agents 0, 1, 0, 3. -/
theorem move_preserves_distinctPositions_witness :
    (collisionModel [0, 1, 2, 3]).distinctPositions ∧
    ((collisionModel [0, 1, 2, 3]).moves [0, 1, 0, 3]).distinctPositions :=
  ⟨by decide, (move_preserves_distinctPositions (collisionModel [0, 1, 2, 3]) (by decide)).2 _⟩

/-- C18: two models in which the agent at address `a` has the same current and
the same desired position, and in which the same cells occur as positions in
the snapshot (in whatever order, however often), leave `a` on the same cell
after `move(a)`. -/
theorem move_depends_on_occupied_set (m1 m2 : Model σ) (a : Nat)
    (hpos : m1.position a = m2.position a)
    (hdx : (m1.mem a).getDesiredX = (m2.mem a).getDesiredX)
    (hdy : (m1.mem a).getDesiredY = (m2.mem a).getDesiredY)
    (hset : ∀ c : Int × Int, c ∈ m1.snapshot a ↔ c ∈ m2.snapshot a) :
    (m1.move a).position a = (m2.move a).position a := by
  have hxy := Prod.mk.inj hpos
  have halts : prioritizedAlternatives (m1.mem a) = prioritizedAlternatives (m2.mem a) :=
    prioritizedAlternatives_congr _ _ hxy.1 hxy.2 hdx hdy
  have h1 : m1.move a = commitFirstEmpty m1 a (m1.snapshot a)
      (prioritizedAlternatives (m1.mem a)) := rfl
  have h2 : m2.move a = commitFirstEmpty m2 a (m2.snapshot a)
      (prioritizedAlternatives (m2.mem a)) := rfl
  rw [h1, h2, halts]
  exact commitFirstEmpty_position_congr m1 m2 a a _ _ hset hpos _
    (alternatives_isInt (m2.mem a))

/-- Witness of C18: agent 0 in the snapshots `[(5,5), (5,7)]` and
`[(5,5), (5,5), (5,7)]` ends on `(7,7)` both times. -/
theorem move_depends_on_occupied_set_witness :
    (exampleModel [0, 1] IMPLEMENTATION.MOVE).snapshot 0 = [(5, 5), (5, 7)] ∧
    (Model.mk [3, 2, 0] shuffledMem IMPLEMENTATION.MOVE).snapshot 0
      = [(5, 5), (5, 5), (5, 7)] ∧
    ((exampleModel [0, 1] IMPLEMENTATION.MOVE).move 0).position 0
      = ((Model.mk [3, 2, 0] shuffledMem IMPLEMENTATION.MOVE).move 0).position 0 := by
  have e1 : (exampleModel [0, 1] IMPLEMENTATION.MOVE).snapshot 0 = [(5, 5), (5, 7)] := by
    decide
  have e2 : (Model.mk [3, 2, 0] shuffledMem IMPLEMENTATION.MOVE).snapshot 0
      = [(5, 5), (5, 5), (5, 7)] := by decide
  refine ⟨e1, e2, move_depends_on_occupied_set _ _ 0 (by decide) (by decide) (by decide) ?_⟩
  intro c
  rw [e1, e2]
  simp

end moveTheorems2

/-! ## Distances -/

section distanceLemmas

variable {σ : Type}

open Model

theorem alternatives_of_straight (agent : Tagent σ)
    (h : agent.getDesiredX - agent.getX = 0 ∨ agent.getDesiredY - agent.getY = 0)
    (hno : noOverflow agent) :
    prioritizedAlternatives agent =
      [(agent.getDesiredX, agent.getDesiredY),
       (agent.getDesiredX + (agent.getDesiredY - agent.getY),
        agent.getDesiredY + (agent.getDesiredX - agent.getX)),
       (agent.getDesiredX - (agent.getDesiredY - agent.getY),
        agent.getDesiredY - (agent.getDesiredX - agent.getX))] := by
  have htest := (straight_test_iff agent).mpr h
  obtain ⟨hdx, hdy, hsums⟩ := hno
  obtain ⟨h1, h2, h3, h4⟩ := hsums h
  unfold prioritizedAlternatives
  simp only [htest, if_true]
  rw [wrapInt_eq_self _ hdx, wrapInt_eq_self _ hdy, wrapInt_eq_self _ h1,
    wrapInt_eq_self _ h2, wrapInt_eq_self _ h3, wrapInt_eq_self _ h4]

theorem alternatives_of_diagonal (agent : Tagent σ)
    (hx : agent.getDesiredX - agent.getX ≠ 0) (hy : agent.getDesiredY - agent.getY ≠ 0) :
    prioritizedAlternatives agent =
      [(agent.getDesiredX, agent.getDesiredY),
       (agent.getDesiredX, agent.getY),
       (agent.getX, agent.getDesiredY)] := by
  have htest : ¬ (wrapInt (agent.getDesiredX - agent.getX) = 0 ∨
      wrapInt (agent.getDesiredY - agent.getY) = 0) := by
    rw [straight_test_iff]
    exact not_or.mpr ⟨hx, hy⟩
  unfold prioritizedAlternatives
  simp only [htest, if_false]

/-- The shape of an alternative when no operation overflows. -/
theorem alternatives_cases (agent : Tagent σ) (hno : noOverflow agent) (c : Int × Int)
    (hc : c ∈ prioritizedAlternatives agent) :
    c = (agent.getDesiredX, agent.getDesiredY) ∨
    ((agent.getDesiredX - agent.getX = 0 ∨ agent.getDesiredY - agent.getY = 0) ∧
      (c = (agent.getDesiredX + (agent.getDesiredY - agent.getY),
            agent.getDesiredY + (agent.getDesiredX - agent.getX)) ∨
       c = (agent.getDesiredX - (agent.getDesiredY - agent.getY),
            agent.getDesiredY - (agent.getDesiredX - agent.getX)))) ∨
    ((agent.getDesiredX - agent.getX ≠ 0 ∧ agent.getDesiredY - agent.getY ≠ 0) ∧
      (c = (agent.getDesiredX, agent.getY) ∨ c = (agent.getX, agent.getDesiredY))) := by
  by_cases hs : agent.getDesiredX - agent.getX = 0 ∨ agent.getDesiredY - agent.getY = 0
  · rw [alternatives_of_straight agent hs hno] at hc
    simp only [List.mem_cons, List.mem_singleton, List.not_mem_nil, or_false] at hc
    rcases hc with h | h | h
    · exact Or.inl h
    · exact Or.inr (Or.inl ⟨hs, Or.inl h⟩)
    · exact Or.inr (Or.inl ⟨hs, Or.inr h⟩)
  · have hs2 : agent.getDesiredX - agent.getX ≠ 0 ∧ agent.getDesiredY - agent.getY ≠ 0 :=
      not_or.mp hs
    rw [alternatives_of_diagonal agent hs2.1 hs2.2] at hc
    simp only [List.mem_cons, List.mem_singleton, List.not_mem_nil, or_false] at hc
    rcases hc with h | h | h
    · exact Or.inl h
    · exact Or.inr (Or.inr ⟨hs2, Or.inl h⟩)
    · exact Or.inr (Or.inr ⟨hs2, Or.inr h⟩)

theorem alternatives_within_one (agent : Tagent σ) (hno : noOverflow agent)
    (hx : |agent.getDesiredX - agent.getX| ≤ 1) (hy : |agent.getDesiredY - agent.getY| ≤ 1)
    (c : Int × Int) (hc : c ∈ prioritizedAlternatives agent) :
    |c.1 - agent.getX| ≤ 1 ∧ |c.2 - agent.getY| ≤ 1 := by
  simp only [abs_eq_max_neg] at hx hy ⊢
  rcases alternatives_cases agent hno c hc with h | ⟨hs, h | h⟩ | ⟨_, h | h⟩ <;>
    (subst h; constructor <;> omega)

theorem manhattan_alternative_le (agent : Tagent σ) (hno : noOverflow agent) (c : Int × Int)
    (hc : c ∈ prioritizedAlternatives agent) :
    manhattan c (agent.getDesiredX, agent.getDesiredY) ≤
      manhattan (agent.getX, agent.getY) (agent.getDesiredX, agent.getDesiredY) := by
  simp only [manhattan, abs_eq_max_neg]
  rcases alternatives_cases agent hno c hc with h | ⟨hs, h | h⟩ | ⟨_, h | h⟩ <;>
    (subst h; omega)

theorem vectorIndexAfter_eq (size : Nat) : ∀ n i : Nat, vectorIndexAfter size n i = i
  | 0, _ => rfl
  | n + 1, i => by
    unfold vectorIndexAfter
    split_ifs
    · exact vectorIndexAfter_eq size n i
    · rfl

end distanceLemmas

/-! ## Theorems on distances and on the VECTOR loop -/

section distanceTheorems

variable {σ : Type}

open Model

/-- C19, refuted as stated: the agent on `(2147483647, 0)` wants to go one cell
up, to `(2147483647, 1)`, which is taken; its first alternative is
`(2147483647 + 1, 1)` in 32-bit arithmetic, that is `(-2147483648, 1)`, and
`move` puts the agent there, `4294967295` cells to the left. -/
theorem move_overflow_far_jump :
    |(edgeModel.mem 0).getDesiredX - (edgeModel.mem 0).getX| ≤ 1 ∧
    |(edgeModel.mem 0).getDesiredY - (edgeModel.mem 0).getY| ≤ 1 ∧
    edgeModel.position 0 = (2147483647, 0) ∧
    prioritizedAlternatives (edgeModel.mem 0)
      = [(2147483647, 1), (-2147483648, 1), (2147483646, 1)] ∧
    (edgeModel.move 0).position 0 = (-2147483648, 1) ∧
    ¬ (|((edgeModel.move 0).position 0).1 - (edgeModel.position 0).1| ≤ 1 ∧
       |((edgeModel.move 0).position 0).2 - (edgeModel.position 0).2| ≤ 1) := by
  decide

/-- C19, amended: if none of the 32-bit operations of `move` on the agent at
address `a` overflows and its desired position is at most one cell away from
its current position in each coordinate, then so is each of its three
alternatives, and so is its position after `move`. -/
theorem move_within_one_cell (m : Model σ) (a : Nat)
    (hno : noOverflow (m.mem a))
    (hx : |(m.mem a).getDesiredX - (m.mem a).getX| ≤ 1)
    (hy : |(m.mem a).getDesiredY - (m.mem a).getY| ≤ 1) :
    (∀ c ∈ prioritizedAlternatives (m.mem a),
      |c.1 - (m.mem a).getX| ≤ 1 ∧ |c.2 - (m.mem a).getY| ≤ 1) ∧
    |((m.move a).position a).1 - (m.position a).1| ≤ 1 ∧
    |((m.move a).position a).2 - (m.position a).2| ≤ 1 := by
  refine ⟨alternatives_within_one (m.mem a) hno hx hy, ?_⟩
  have hmove : m.move a = commitFirstEmpty m a (m.snapshot a)
      (prioritizedAlternatives (m.mem a)) := rfl
  rcases commitFirstEmpty_cases m a (m.snapshot a) (prioritizedAlternatives (m.mem a))
      (alternatives_isInt (m.mem a)) with
    ⟨c, hc, _, hpos⟩ | ⟨_, hsame⟩
  · rw [hmove, hpos]
    exact alternatives_within_one (m.mem a) hno hx hy c hc
  · rw [hmove, hsame]
    simp

/-- Witness of C19 amended: the agent on `(2,3)` that wants `(3,4)` and finds
`(3,4)` taken by the agent at address 1 ends on `(3,3)`. -/
theorem move_within_one_cell_witness :
    ((Model.mk [0, 1]
        (fun p => if p = 0 then diagonalAgent else ⟨3, 4, 3, 4, (), by decide⟩)
        IMPLEMENTATION.MOVE).move 0).position 0 = (3, 3) ∧
    |(((Model.mk [0, 1]
        (fun p => if p = 0 then diagonalAgent else ⟨3, 4, 3, 4, (), by decide⟩)
        IMPLEMENTATION.MOVE).move 0).position 0).1 - 2| ≤ 1 :=
  ⟨by decide,
   (move_within_one_cell
      (Model.mk [0, 1]
        (fun p => if p = 0 then diagonalAgent else ⟨3, 4, 3, 4, (), by decide⟩)
        IMPLEMENTATION.MOVE) 0 (by decide) (by decide) (by decide)).2.1⟩

/-- C20, refuted as stated: the agent on `(5,5)` with desired position `(5,7)`
has the alternative `(7,7)`, whose Manhattan distance to `(5,7)` is 2, the
distance of the current position, and so not smaller.  And where the 32-bit
sum overflows an alternative is farther away: the agent on `(2147483647, 0)`
with desired position `(2147483647, 1)` has the alternative `(-2147483648, 1)`
at distance `4294967295`. -/
theorem straight_alternative_not_closer :
    ((exampleMem 0).getDesiredX, (exampleMem 0).getDesiredY)
      ≠ ((exampleMem 0).getX, (exampleMem 0).getY) ∧
    prioritizedAlternatives (exampleMem 0) = [(5, 7), (7, 7), (3, 7)] ∧
    |(exampleMem 0).getDesiredX - (exampleMem 0).getX|
      + |(exampleMem 0).getDesiredY - (exampleMem 0).getY| = 2 ∧
    manhattan (7, 7) ((exampleMem 0).getDesiredX, (exampleMem 0).getDesiredY) = 2 ∧
    ¬ (∀ c ∈ prioritizedAlternatives (exampleMem 0),
        manhattan c ((exampleMem 0).getDesiredX, (exampleMem 0).getDesiredY) <
          |(exampleMem 0).getDesiredX - (exampleMem 0).getX|
            + |(exampleMem 0).getDesiredY - (exampleMem 0).getY|) ∧
    (-2147483648, 1) ∈ prioritizedAlternatives (edgeMem 0) ∧
    |(edgeMem 0).getDesiredX - (edgeMem 0).getX|
      + |(edgeMem 0).getDesiredY - (edgeMem 0).getY| = 1 ∧
    manhattan (-2147483648, 1) ((edgeMem 0).getDesiredX, (edgeMem 0).getDesiredY)
      = 4294967295 := by
  decide

/-- C20, amended: for an agent whose desired position differs from its current
position and on which none of the 32-bit operations of `move` overflows, with
alternatives `c0, c1, c2`, no alternative is farther from the desired position
(Manhattan distance) than the current position is, that is than `|dx| + |dy|`;
`c0` is strictly closer; for a diagonal displacement `c1` and `c2` are strictly
closer; for an axis-aligned displacement `c1` and `c2` are exactly as far as
the current position. -/
theorem alternatives_not_farther (agent : Tagent σ) (c0 c1 c2 : Int × Int)
    (hc : prioritizedAlternatives agent = [c0, c1, c2])
    (hne : (agent.getDesiredX, agent.getDesiredY) ≠ (agent.getX, agent.getY))
    (hno : noOverflow agent) :
    (∀ c ∈ prioritizedAlternatives agent,
      manhattan c (agent.getDesiredX, agent.getDesiredY) ≤
        |agent.getDesiredX - agent.getX| + |agent.getDesiredY - agent.getY|) ∧
    manhattan c0 (agent.getDesiredX, agent.getDesiredY) <
      |agent.getDesiredX - agent.getX| + |agent.getDesiredY - agent.getY| ∧
    ((agent.getDesiredX - agent.getX ≠ 0 ∧ agent.getDesiredY - agent.getY ≠ 0) →
      manhattan c1 (agent.getDesiredX, agent.getDesiredY) <
        |agent.getDesiredX - agent.getX| + |agent.getDesiredY - agent.getY| ∧
      manhattan c2 (agent.getDesiredX, agent.getDesiredY) <
        |agent.getDesiredX - agent.getX| + |agent.getDesiredY - agent.getY|) ∧
    ((agent.getDesiredX - agent.getX = 0 ∨ agent.getDesiredY - agent.getY = 0) →
      manhattan c1 (agent.getDesiredX, agent.getDesiredY) =
        |agent.getDesiredX - agent.getX| + |agent.getDesiredY - agent.getY| ∧
      manhattan c2 (agent.getDesiredX, agent.getDesiredY) =
        |agent.getDesiredX - agent.getX| + |agent.getDesiredY - agent.getY|) := by
  have hxy : agent.getDesiredX - agent.getX ≠ 0 ∨ agent.getDesiredY - agent.getY ≠ 0 := by
    by_contra hcon
    have h2 := not_or.mp hcon
    apply hne
    have e1 : agent.getDesiredX = agent.getX := by
      have := not_not.mp h2.1
      omega
    have e2 : agent.getDesiredY = agent.getY := by
      have := not_not.mp h2.2
      omega
    rw [e1, e2]
  refine ⟨?_, ?_, ?_, ?_⟩
  · intro c hcmem
    have h := manhattan_alternative_le agent hno c hcmem
    simp only [manhattan, abs_eq_max_neg] at h ⊢
    omega
  · have h0 : c0 = (agent.getDesiredX, agent.getDesiredY) := by
      obtain ⟨d1, d2, hd⟩ := prioritizedAlternatives_head agent
      rw [hd] at hc
      exact (List.cons.inj hc).1.symm
    subst h0
    simp only [manhattan, abs_eq_max_neg]
    omega
  · intro hdiag
    rw [alternatives_of_diagonal agent hdiag.1 hdiag.2] at hc
    have h1 := (List.cons.inj (List.cons.inj hc).2).1
    have h2 := (List.cons.inj (List.cons.inj (List.cons.inj hc).2).2).1
    subst h1 h2
    simp only [manhattan, abs_eq_max_neg]
    constructor <;> omega
  · intro hstraight
    rw [alternatives_of_straight agent hstraight hno] at hc
    have h1 := (List.cons.inj (List.cons.inj hc).2).1
    have h2 := (List.cons.inj (List.cons.inj (List.cons.inj hc).2).2).1
    subst h1 h2
    simp only [manhattan, abs_eq_max_neg]
    constructor <;> omega

/-- Witness of C20 amended: for the agent on `(2,3)` with desired position
`(3,4)` the alternative `(3,3)` is at distance 1, the current position at
distance 2. -/
theorem alternatives_not_farther_witness :
    manhattan (3, 3) (diagonalAgent.getDesiredX, diagonalAgent.getDesiredY) <
      |diagonalAgent.getDesiredX - diagonalAgent.getX|
        + |diagonalAgent.getDesiredY - diagonalAgent.getY| :=
  ((alternatives_not_farther diagonalAgent (3, 4) (3, 3) (2, 4) (by decide) (by decide)
      (by decide)).2.2.1
    ⟨by decide, by decide⟩).1

/-- C14, evaluated on six agents: the VECTOR tick is still in its loop after any
number of steps, with the loop variable at 0, so it computes and commits no
desired position, while the SEQ tick calls `computeNextDesiredPosition` on each
of the six agents and moves each one cell to the right. -/
theorem tick_VECTOR_six_agents :
    (exampleModel [0, 1, 2, 3, 4, 5] IMPLEMENTATION.VECTOR).agents.length = 6 ∧
    (∀ fuel : Nat,
      tick stepRight [] fuel (exampleModel [0, 1, 2, 3, 4, 5] IMPLEMENTATION.VECTOR)
        = Outcome.outOfFuel) ∧
    (∀ n : Nat, vectorIndexAfter 6 n 0 = 0) ∧
    (∃ r : Run Unit,
      tick stepRight [] 0 (exampleModel [0, 1, 2, 3, 4, 5] IMPLEMENTATION.SEQ) = Outcome.done r ∧
      r.calls = [0, 1, 2, 3, 4, 5] ∧
      positions r.model = [(6, 5), (6, 7), (8, 7), (4, 7), (4, 7), (4, 7)]) :=
  ⟨rfl, fun fuel => tick_VECTOR_outOfFuel stepRight [] _ rfl (by decide) fuel,
   fun n => vectorIndexAfter_eq 6 n 0, ⟨_, rfl, by decide, by decide⟩⟩

/-- C15, evaluated on four agents: the loop variable of the VECTOR branch keeps
its value on every pass (it does not advance by 4), the loop has not ended
after any number of tests of its condition, in particular not after
`⌈4/4⌉ + 1 = 2`, and `tick` does not return. -/
theorem vectorLoop_index_stays :
    (∀ size n i : Nat, vectorIndexAfter size n i = i) ∧
    vectorIndexAfter 4 1 0 ≠ 4 ∧
    (∀ fuel : Nat, vectorLoop 4 fuel 0 = none) ∧
    vectorLoop 4 2 0 = none ∧
    (∀ fuel : Nat,
      tick stepRight [] fuel (exampleModel [0, 1, 2, 3] IMPLEMENTATION.VECTOR)
        = Outcome.outOfFuel) :=
  ⟨vectorIndexAfter_eq, by decide, vectorLoop_stuck 4 (by decide), rfl,
   fun fuel => tick_VECTOR_outOfFuel stepRight [] _ rfl (by decide) fuel⟩

end distanceTheorems

end Ped
